import Mathlib

/-!
Verification of kmp.h (Knuth-Morris-Pratt pattern matching).

The C code is embedded shallowly.  C arrays are accessed through raw
pointers with int indexes, so texts, patterns and the failure table are
modelled as total functions from Int: an access outside the valid range
simply reads an unconstrained junk value, exactly as a C out-of-bounds
read yields an unconstrained byte.  Buffers that the C code receives
uninitialised (the malloc'ed failure table, the pattern copy buffer in
kmp_build) appear as explicit function parameters holding arbitrary
junk contents.  The C while loop
    while (i > -1 && P[i + 1] != c) i = failure[i];
is written with an explicit fuel argument; every call site passes the
fuel i + 2, which is proved sufficient whenever the failure table
satisfies failure[k] < k (theorem kmpFall_terminates below).
-/

namespace Kmp

/-- Fallback loop shared by kmp_failure, kmp_match and kmp_stream:
while (i > -1 and P[i + 1] != c) i = failure[i].  The Nat argument is
fuel; when the fuel runs out the current i is returned. -/
def kmpFall (P : Int → Char) (fl : Int → Int) (c : Char) : Nat → Int → Int
  | 0, i => i
  | fuel + 1, i => if -1 < i ∧ P (i + 1) ≠ c then kmpFall P fl c fuel (fl i) else i

/-- Loop body shared by the three C functions: fall back along the
failure chain, then advance i when P[i + 1] matches the next symbol. -/
def kmpStep (P : Int → Char) (fl : Int → Int) (c : Char) (i : Int) : Int :=
  let i1 := kmpFall P fl c (i + 2).toNat i
  if P (i1 + 1) = c then i1 + 1 else i1

/-- Store update, modelling the array write failure[j] = v. -/
def setAt (f : Int → Int) (j v : Int) : Int → Int :=
  fun k => if k = j then v else f k

/-- Loop for (j = 1; j < m; j++) of kmp_failure; rem is the number of
remaining iterations, so rem = m - j throughout. -/
def kmpFailureGo (P : Int → Char) : Nat → Int → Int → (Int → Int) → (Int → Int)
  | 0, _, _, fl => fl
  | rem + 1, j, i, fl =>
    let i2 := kmpStep P fl (P j) i
    kmpFailureGo P rem (j + 1) i2 (setAt fl j i2)

/-- kmp_failure from kmp.h.  fl0 holds the arbitrary initial contents of
the caller-supplied failure buffer.  The store failure[0] = -1 happens
unconditionally, before the loop, exactly as in the C source - even
when m = 0. -/
def kmp_failure (P : Int → Char) (m : Int) (fl0 : Int → Int) : Int → Int :=
  kmpFailureGo P (m - 1).toNat 1 (-1) (setAt fl0 0 (-1))

/-- Loop for (j = 0; j < n; j++) of kmp_match; returns the final i and
the list of recorded match offsets (the C code writes them into the
output buffer in this order and returns their count). -/
def kmpScan (T P : Int → Char) (m : Int) (fl : Int → Int) :
    Nat → Int → Int → List Int → Int × List Int
  | 0, _, i, out => (i, out)
  | rem + 1, j, i, out =>
    let i2 := kmpStep P fl (T j) i
    if i2 = m - 1 then kmpScan T P m fl rem (j + 1) (fl i2) (out ++ [j - m + 1])
    else kmpScan T P m fl rem (j + 1) i2 out

/-- kmp_match from kmp.h.  fl0 holds the arbitrary initial contents of
the internal malloc'ed failure table. -/
def kmp_match (T : Int → Char) (n : Int) (P : Int → Char) (m : Int)
    (fl0 : Int → Int) : List Int :=
  (kmpScan T P m (kmp_failure P m fl0) n.toNat 0 (-1) []).2

/-- struct kmp_state_t from kmp.h. -/
structure KmpState where
  P : Int → Char
  m : Int
  i : Int
  failure : Int → Int

/-- kmp_build from kmp.h: copies the pattern entries 0 .. m - 1 into
matcher-owned storage (padP holds the junk beyond the copied range),
builds the failure table (fl0 is the junk initially in that buffer)
and initialises i = -1. -/
def kmp_build (P : Int → Char) (m : Int) (padP : Int → Char)
    (fl0 : Int → Int) : KmpState :=
  { P := fun k => if 0 ≤ k ∧ k < m then P k else padP k
    m := m
    i := -1
    failure := kmp_failure P m fl0 }

/-- kmp_stream from kmp.h: feeds one character, returns the updated
state together with the result (j on a match ending at text index j,
and -1 otherwise). -/
def kmp_stream (st : KmpState) (c : Char) (j : Int) : KmpState × Int :=
  let i1 := kmpStep st.P st.failure c st.i
  if i1 = st.m - 1 then ({ st with i := st.failure i1 }, j)
  else ({ st with i := i1 }, -1)

/-- Feeding the text characters T[j0], T[j0 + 1], ... one at a time
through kmp_stream, collecting the emitted match positions in order. -/
def kmpStreamRun (T : Int → Char) : KmpState → Nat → Int → List Int
  | _, 0, _ => []
  | st, rem + 1, j =>
    let r := kmp_stream st (T j) j
    (if r.2 = -1 then [] else [r.2]) ++ kmpStreamRun T r.1 rem (j + 1)

/-- Feeding an arbitrary finite sequence of (symbol, position) pairs
through kmp_stream, keeping only the final state. -/
def kmpFeeds : KmpState → List (Char × Int) → KmpState
  | st, [] => st
  | st, f :: fs => kmpFeeds (kmp_stream st f.1 f.2).1 fs

/-- Text induced by a list of fed characters: index k reads the k-th
element of the list (out of range indexes are never consulted by the
properties below). -/
def csText (cs : List Char) : Int → Char :=
  fun k => cs.getD k.toNat 'a'

/-! Specification predicates. -/

/-- The length-b suffix of T[0 .. j-1] equals P[0 .. b-1]: after
consuming j characters of T, the last b of them spell the first b
pattern characters. -/
def MatchedAt (T P : Int → Char) (j b : Int) : Prop :=
  0 ≤ b ∧ b ≤ j ∧ ∀ t, 0 ≤ t → t < b → P t = T (j - b + t)

/-- b is the length of a proper border of P[0 .. j]: a prefix of
P[0 .. j] of length b that is also a suffix of it, with b ≤ j so the
border is proper (the window has j + 1 characters). -/
def IsBorderLen (P : Int → Char) (j b : Int) : Prop :=
  MatchedAt P P (j + 1) b ∧ b ≤ j

/-- The failure table entry at j is correct: fl j + 1 is the length of
the longest proper border of P[0 .. j]. -/
def FailCorrectAt (P : Int → Char) (fl : Int → Int) (j : Int) : Prop :=
  IsBorderLen P j (fl j + 1) ∧ ∀ b, IsBorderLen P j b → b ≤ fl j + 1

/-- Full functional specification of batch matching: the output is
strictly increasing and contains exactly the offsets o such that
T[o .. o+m-1] equals P[0 .. m-1] and the occurrence fits in the text. -/
def MatchSpec (T : Int → Char) (n : Int) (P : Int → Char) (m : Int)
    (out : List Int) : Prop :=
  List.Chain' (· < ·) out ∧
    ∀ o, o ∈ out ↔
      0 ≤ o ∧ o + m ≤ n ∧ ∀ t, 0 ≤ t → t < m → T (o + t) = P t

/-! Concrete inputs used in examples and witnesses. -/

/-- The all-a text and pattern; any length window spells aa...a. -/
def allA : Int → Char := fun _ => 'a'

/-- The alternating text; window starting at an even offset spells
abab...; used for the text abababab and the pattern abab. -/
def abT : Int → Char := fun k => if k % 2 = 0 then 'a' else 'b'

/-- The all-b function, used as junk contents beyond a buffer. -/
def allB : Int → Char := fun _ => 'b'

/-- Zero junk contents for an uninitialised int buffer. -/
def zeroF : Int → Int := fun _ => 0

/-- Junk contents 7 everywhere, used to exhibit buffer writes. -/
def sevenF : Int → Int := fun _ => 7

/-! Basic lemmas about the store update and the matching predicate. -/

lemma setAt_self (f : Int → Int) (j v : Int) : setAt f j v j = v := by
  simp [setAt]

lemma setAt_ne (f : Int → Int) (j v k : Int) (h : k ≠ j) : setAt f j v k = f k := by
  simp [setAt, h]

lemma matched_zero {T P : Int → Char} {j : Int} (hj : 0 ≤ j) : MatchedAt T P j 0 :=
  ⟨le_refl 0, hj, fun t _ ht => absurd ht (by omega)⟩

lemma matched_nonneg {T P : Int → Char} {j b : Int} (h : MatchedAt T P j b) : 0 ≤ b :=
  h.1

lemma matched_le {T P : Int → Char} {j b : Int} (h : MatchedAt T P j b) : b ≤ j :=
  h.2.1

lemma matched_full {P : Int → Char} {j : Int} (hj : 0 ≤ j) : MatchedAt P P j j := by
  refine ⟨hj, le_refl j, fun t ht0 htj => ?_⟩
  have h : j - j + t = t := by omega
  rw [h]

/-- A shorter matched suffix is exactly a matched suffix of the longest
one: with the window of length B known to match, length b ≤ B matches
the text iff it matches the pattern against its own length-B prefix. -/
lemma matched_sub {T P : Int → Char} {j B b : Int} (hB : MatchedAt T P j B)
    (hb0 : 0 ≤ b) (hbB : b ≤ B) : MatchedAt T P j b ↔ MatchedAt P P B b := by
  obtain ⟨hB0, hBj, hBval⟩ := hB
  constructor
  · rintro ⟨-, -, hval⟩
    refine ⟨hb0, hbB, fun t ht0 htb => ?_⟩
    have h1 : P (B - b + t) = T (j - B + (B - b + t)) :=
      hBval (B - b + t) (by omega) (by omega)
    have h2 : P t = T (j - b + t) := hval t ht0 htb
    have h3 : j - B + (B - b + t) = j - b + t := by omega
    rw [h2, h1, h3]
  · rintro ⟨-, -, hval⟩
    refine ⟨hb0, by omega, fun t ht0 htb => ?_⟩
    have h1 : P t = P (B - b + t) := hval t ht0 htb
    have h2 : P (B - b + t) = T (j - B + (B - b + t)) :=
      hBval (B - b + t) (by omega) (by omega)
    have h3 : j - B + (B - b + t) = j - b + t := by omega
    rw [h1, h2, h3]

/-- Extending a match by one consumed character. -/
lemma matched_succ {T P : Int → Char} {j b : Int} (hb : 1 ≤ b) :
    MatchedAt T P (j + 1) b ↔ MatchedAt T P j (b - 1) ∧ P (b - 1) = T j := by
  constructor
  · rintro ⟨hb0, hbj, hval⟩
    refine ⟨⟨by omega, by omega, fun t ht0 htb => ?_⟩, ?_⟩
    · have h := hval t ht0 (by omega)
      have h3 : j + 1 - b + t = j - (b - 1) + t := by omega
      rwa [h3] at h
    · have h := hval (b - 1) (by omega) (by omega)
      have h3 : j + 1 - b + (b - 1) = j := by omega
      rwa [h3] at h
  · rintro ⟨⟨hb0, hbj, hval⟩, hc⟩
    refine ⟨by omega, by omega, fun t ht0 htb => ?_⟩
    by_cases ht : t = b - 1
    · subst ht
      have h3 : j + 1 - b + (b - 1) = j := by omega
      rw [h3]; exact hc
    · have h := hval t ht0 (by omega)
      have h3 : j - (b - 1) + t = j + 1 - b + t := by omega
      rwa [h3] at h

/-- The matching predicate only reads the text at indexes 0 .. j-1. -/
lemma matched_congrT {T T' P : Int → Char} {j b : Int}
    (h : ∀ k, 0 ≤ k → k < j → T k = T' k) (hm : MatchedAt T P j b) :
    MatchedAt T' P j b := by
  obtain ⟨hb0, hbj, hval⟩ := hm
  refine ⟨hb0, hbj, fun t ht0 htb => ?_⟩
  rw [hval t ht0 htb]
  exact h (j - b + t) (by omega) (by omega)

/-- The matching predicate only reads the pattern at indexes 0 .. b-1. -/
lemma matched_congrP {T P P' : Int → Char} {j b : Int}
    (h : ∀ k, 0 ≤ k → k < b → P k = P' k) (hm : MatchedAt T P j b) :
    MatchedAt T P' j b := by
  obtain ⟨hb0, hbj, hval⟩ := hm
  refine ⟨hb0, hbj, fun t ht0 htb => ?_⟩
  rw [← hval t ht0 htb]
  exact (h t ht0 htb).symm

/-! Lemmas about the fallback loop. -/

/-- When the loop condition already fails, any fuel returns i itself. -/
lemma kmpFall_stop {P : Int → Char} {fl : Int → Int} {c : Char} {i : Int}
    (h : ¬(-1 < i ∧ P (i + 1) ≠ c)) : ∀ f, kmpFall P fl c f i = i
  | 0 => rfl
  | f + 1 => by simp only [kmpFall, if_neg h]

/-- The loop never increases i and respects the lower bound -1, as long
as the failure entries it reads do. -/
lemma kmpFall_range {P : Int → Char} {fl : Int → Int} {c : Char} {B : Int}
    (hfl : ∀ k, 0 ≤ k → k ≤ B → -1 ≤ fl k ∧ fl k < k) :
    ∀ fuel : Nat, ∀ i : Int, -1 ≤ i → i ≤ B →
      -1 ≤ kmpFall P fl c fuel i ∧ kmpFall P fl c fuel i ≤ i := by
  intro fuel
  induction fuel with
  | zero => exact fun i h1 _ => ⟨h1, le_refl i⟩
  | succ f ih =>
    intro i h1 h2
    by_cases hcond : -1 < i ∧ P (i + 1) ≠ c
    · simp only [kmpFall, if_pos hcond]
      have hk := hfl i (by omega) h2
      have h := ih (fl i) (by omega) (by omega)
      exact ⟨h.1, by omega⟩
    · rw [kmpFall_stop hcond]
      exact ⟨h1, le_refl i⟩

/-- Fuel stability: as soon as the fuel reaches i + 2, adding more fuel
does not change the result, provided the failure entries strictly
decrease.  The first Nat argument is an induction bound. -/
lemma kmpFall_fuel {P : Int → Char} {fl : Int → Int} {c : Char} :
    ∀ n : Nat, ∀ i : Int, (∀ k, 0 ≤ k → k ≤ i → fl k < k) → (i + 1).toNat ≤ n →
      ∀ f1 f2 : Nat, (i + 2).toNat ≤ f1 → (i + 2).toNat ≤ f2 →
        kmpFall P fl c f1 i = kmpFall P fl c f2 i := by
  intro n
  induction n with
  | zero =>
    intro i _ hn f1 f2 _ _
    have hi : i ≤ -1 := by omega
    have hcond : ¬(-1 < i ∧ P (i + 1) ≠ c) := fun h => by omega
    rw [kmpFall_stop hcond, kmpFall_stop hcond]
  | succ n ih =>
    intro i hfl hn f1 f2 h1 h2
    by_cases hcond : -1 < i ∧ P (i + 1) ≠ c
    · have hi0 : 0 ≤ i := by omega
      have hlt : fl i < i := hfl i hi0 (le_refl i)
      obtain ⟨g1, rfl⟩ : ∃ g, f1 = g + 1 := ⟨f1 - 1, by omega⟩
      obtain ⟨g2, rfl⟩ : ∃ g, f2 = g + 1 := ⟨f2 - 1, by omega⟩
      simp only [kmpFall, if_pos hcond]
      exact ih (fl i) (fun k hk0 hk => hfl k hk0 (by omega)) (by omega) g1 g2
        (by omega) (by omega)
    · rw [kmpFall_stop hcond, kmpFall_stop hcond]

/-- Termination of the fallback loop: with fuel i + 2 the loop reaches a
state where its condition fails, whenever every failure entry strictly
decreases.  The first Nat argument is an induction bound. -/
lemma kmpFall_exits {P : Int → Char} {fl : Int → Int} {c : Char} :
    ∀ n : Nat, ∀ i : Int, (∀ k, 0 ≤ k → k ≤ i → fl k < k) → (i + 1).toNat ≤ n →
      ¬(-1 < kmpFall P fl c (i + 2).toNat i ∧
        P (kmpFall P fl c (i + 2).toNat i + 1) ≠ c) := by
  intro n
  induction n with
  | zero =>
    intro i _ hn
    have hcond : ¬(-1 < i ∧ P (i + 1) ≠ c) := fun h => by omega
    rw [kmpFall_stop hcond]
    exact hcond
  | succ n ih =>
    intro i hfl hn
    by_cases hcond : -1 < i ∧ P (i + 1) ≠ c
    · have hi0 : 0 ≤ i := by omega
      have hlt : fl i < i := hfl i hi0 (le_refl i)
      have hstep : kmpFall P fl c (i + 2).toNat i
          = kmpFall P fl c (fl i + 2).toNat (fl i) := by
        obtain ⟨g, hg⟩ : ∃ g, (i + 2).toNat = g + 1 := ⟨(i + 1).toNat, by omega⟩
        rw [hg]
        simp only [kmpFall, if_pos hcond]
        exact kmpFall_fuel n (fl i) (fun k hk0 hk => hfl k hk0 (by omega))
          (by omega) g (fl i + 2).toNat (by omega) (le_refl _)
      rw [hstep]
      exact ih (fl i) (fun k hk0 hk => hfl k hk0 (by omega)) (by omega)
    · rw [kmpFall_stop hcond]
      exact hcond

/-- Full characterization of the fallback loop on a correct failure
table: starting from i, with fuel i + 2, the loop returns the largest
r such that r + 1 is the length of a prefix of P matching a suffix of
the window P[0 .. i] (possibly the whole window) and either r = -1 or
P[r + 1] matches c.  The first Nat argument is an induction bound. -/
lemma kmpFall_spec {P : Int → Char} {fl : Int → Int} {c : Char} :
    ∀ n : Nat, ∀ i : Int, -1 ≤ i → (i + 1).toNat ≤ n →
      (∀ k, 0 ≤ k → k ≤ i → FailCorrectAt P fl k) →
      -1 ≤ kmpFall P fl c (i + 2).toNat i ∧
      kmpFall P fl c (i + 2).toNat i ≤ i ∧
      ¬(-1 < kmpFall P fl c (i + 2).toNat i ∧
          P (kmpFall P fl c (i + 2).toNat i + 1) ≠ c) ∧
      MatchedAt P P (i + 1) (kmpFall P fl c (i + 2).toNat i + 1) ∧
      ∀ b, MatchedAt P P (i + 1) b → P b = c →
        b ≤ kmpFall P fl c (i + 2).toNat i + 1 := by
  intro n
  induction n with
  | zero =>
    intro i hi hn _
    have hieq : i = -1 := by omega
    subst hieq
    have hcond : ¬((-1 : Int) < -1 ∧ P (-1 + 1) ≠ c) := fun h => by
      exact absurd h.1 (by omega)
    rw [kmpFall_stop hcond]
    refine ⟨le_refl _, le_refl _, hcond, by simpa using matched_zero (le_refl 0), ?_⟩
    intro b hM _
    have := matched_le hM
    omega
  | succ n ih =>
    intro i hi hn hfc
    by_cases hcond : -1 < i ∧ P (i + 1) ≠ c
    · have hi0 : 0 ≤ i := by omega
      have hfc_i := hfc i hi0 (le_refl i)
      have hfl_le : fl i + 1 ≤ i := hfc_i.1.2
      have hfl_ge : -1 ≤ fl i := by
        have := matched_nonneg hfc_i.1.1
        omega
      have hflk : ∀ k, 0 ≤ k → k ≤ i → fl k < k := fun k hk0 hk => by
        have := (hfc k hk0 hk).1.2
        omega
      have hstep : kmpFall P fl c (i + 2).toNat i
          = kmpFall P fl c (fl i + 2).toNat (fl i) := by
        obtain ⟨g, hg⟩ : ∃ g, (i + 2).toNat = g + 1 := ⟨(i + 1).toNat, by omega⟩
        rw [hg]
        simp only [kmpFall, if_pos hcond]
        exact kmpFall_fuel n (fl i) (fun k hk0 hk => hflk k hk0 (by omega))
          (by omega) g (fl i + 2).toNat (by omega) (le_refl _)
      rw [hstep]
      obtain ⟨ha1, ha2, hb, hc', hd⟩ := ih (fl i) hfl_ge (by omega)
        (fun k hk0 hk => hfc k hk0 (by omega))
      -- the longest proper border of the window P[0 .. i] matches
      have hmB : MatchedAt P P (i + 1) (fl i + 1) := hfc_i.1.1
      refine ⟨ha1, by omega, hb, ?_, ?_⟩
      · exact (matched_sub hmB (by omega) (by omega)).mpr hc'
      · intro b hM hPb
        have hb_le : b ≤ i + 1 := matched_le hM
        have hb_ne : b ≠ i + 1 := by
          intro h
          rw [h] at hPb
          exact hcond.2 hPb
        have hbord : IsBorderLen P i b := ⟨hM, by omega⟩
        have hb_fl : b ≤ fl i + 1 := hfc_i.2 b hbord
        have hM' : MatchedAt P P (fl i + 1) b :=
          (matched_sub hmB (matched_nonneg hM) hb_fl).mp hM
        exact hd b hM' hPb
    · rw [kmpFall_stop hcond]
      refine ⟨hi, le_refl i, hcond, matched_full (by omega), ?_⟩
      intro b hM _
      have := matched_le hM
      omega

/-- Packaged correctness of the shared loop body: on a correct failure
table, starting with -1 ≤ i, the step result i2 satisfies:
it stays in range, a positive i2 certifies that the first i2 pattern
characters match a suffix of the window P[0 .. i] and are followed by
a c, and i2 + 1 bounds every extendable candidate length. -/
lemma kmpStep_spec {P : Int → Char} {fl : Int → Int} {c : Char} {i : Int}
    (hi : -1 ≤ i) (hfc : ∀ k, 0 ≤ k → k ≤ i → FailCorrectAt P fl k) :
    -1 ≤ kmpStep P fl c i ∧
    kmpStep P fl c i ≤ i + 1 ∧
    (0 ≤ kmpStep P fl c i →
      MatchedAt P P (i + 1) (kmpStep P fl c i) ∧ P (kmpStep P fl c i) = c) ∧
    ∀ b, 1 ≤ b → MatchedAt P P (i + 1) (b - 1) → P (b - 1) = c →
      b ≤ kmpStep P fl c i + 1 := by
  obtain ⟨ha1, ha2, hexit, hmr, hmax⟩ :=
    kmpFall_spec (i + 1).toNat i hi (le_refl _) hfc
  unfold kmpStep
  set r := kmpFall P fl c (i + 2).toNat i with hr
  by_cases hPc : P (r + 1) = c
  · rw [if_pos hPc]
    refine ⟨by omega, by omega, fun _ => ⟨hmr, hPc⟩, ?_⟩
    intro b hb1 hM hPb
    have := hmax (b - 1) hM hPb
    omega
  · rw [if_neg hPc]
    have hrneg : r = -1 := by
      by_contra h
      exact hexit ⟨by omega, hPc⟩
    refine ⟨by omega, by omega, fun h => absurd h (by omega), ?_⟩
    intro b hb1 hM hPb
    have h1 := hmax (b - 1) hM hPb
    have hb_eq : b = 1 := by omega
    subst hb_eq
    rw [hrneg] at hPc
    norm_num at hPc hPb
    exact absurd hPb hPc

/-- Index cast for the matching predicate. -/
lemma matched_cast {T P : Int → Char} {j j' b b' : Int} (hj : j = j') (hb : b = b')
    (h : MatchedAt T P j b) : MatchedAt T P j' b' := by
  subst hj; subst hb; exact h

/-! Correctness of the failure table construction. -/

/-- Correctness of a failure entry only depends on the table at that
index. -/
lemma failCorrect_congr {P : Int → Char} {fl fl' : Int → Int} {j : Int}
    (h : fl j = fl' j) (hfc : FailCorrectAt P fl j) : FailCorrectAt P fl' j := by
  unfold FailCorrectAt at hfc ⊢
  rw [← h]
  exact hfc

/-- Chain bridge: the prefixes of P matching a suffix of the window
P[0 .. w] of length at most the longest proper border are exactly the
proper borders of that window. -/
lemma border_chain {P : Int → Char} {fl : Int → Int} {w : Int} (_hw : 0 ≤ w)
    (hfc : FailCorrectAt P fl w) :
    ∀ b, 0 ≤ b → (MatchedAt P P (fl w + 1) b ↔ IsBorderLen P w b) := by
  obtain ⟨⟨hmB, hprB⟩, hmax⟩ := hfc
  intro b hb0
  constructor
  · intro hM
    have hble : b ≤ fl w + 1 := matched_le hM
    exact ⟨(matched_sub hmB hb0 hble).mpr hM, by omega⟩
  · rintro ⟨hM, hble⟩
    have hbfl : b ≤ fl w + 1 := hmax b ⟨hM, hble⟩
    exact (matched_sub hmB hb0 hbfl).mp hM

/-- One iteration of the kmp_failure loop computes the correct entry:
if all entries below j are correct and the loop variable i equals
failure[j - 1], then the value stored at j is the length (minus one)
of the longest proper border of P[0 .. j]. -/
lemma kmp_failure_step {P : Int → Char} {fl : Int → Int} {j : Int} (hj : 1 ≤ j)
    (hprev : ∀ k, 0 ≤ k → k < j → FailCorrectAt P fl k) :
    IsBorderLen P j (kmpStep P fl (P j) (fl (j - 1)) + 1) ∧
    ∀ b, IsBorderLen P j b → b ≤ kmpStep P fl (P j) (fl (j - 1)) + 1 := by
  have hfc_prev := hprev (j - 1) (by omega) (by omega)
  have hi0_ge : -1 ≤ fl (j - 1) := by
    have := matched_nonneg hfc_prev.1.1
    omega
  have hi0_le : fl (j - 1) + 1 ≤ j - 1 := hfc_prev.1.2
  obtain ⟨hs1, hs2, hs3, hs4⟩ := kmpStep_spec (c := P j) hi0_ge
    (fun k hk0 hk => hprev k hk0 (by omega))
  have hbridge := border_chain (by omega : (0 : Int) ≤ j - 1) hfc_prev
  set i2 := kmpStep P fl (P j) (fl (j - 1)) with hi2
  constructor
  · by_cases hneg : i2 = -1
    · rw [hneg]
      norm_num
      exact ⟨matched_zero (by omega), by omega⟩
    · obtain ⟨hM, hPeq⟩ := hs3 (by omega)
      have hbord : IsBorderLen P (j - 1) i2 := (hbridge i2 (by omega)).mp hM
      obtain ⟨hMw, hple⟩ := hbord
      refine ⟨?_, by omega⟩
      have hMj : MatchedAt P P j i2 := matched_cast (by omega) rfl hMw
      refine (matched_succ (by omega)).mpr ⟨?_, ?_⟩
      · exact matched_cast rfl (by omega) hMj
      · have harg : i2 + 1 - 1 = i2 := by omega
        rw [harg]
        exact hPeq
  · intro b hbord
    by_cases hb0 : b = 0
    · omega
    · have hb1 : 1 ≤ b := by
        have := (hbord.1).1
        omega
      obtain ⟨hMb, hPb⟩ := (matched_succ hb1).mp hbord.1
      have hble := hbord.2
      have hbord' : IsBorderLen P (j - 1) (b - 1) :=
        ⟨matched_cast (by omega) rfl hMb, by omega⟩
      have hMc : MatchedAt P P (fl (j - 1) + 1) (b - 1) :=
        (hbridge (b - 1) (by omega)).mpr hbord'
      exact hs4 b hb1 hMc hPb

/-- Loop invariant of kmp_failure: running the remaining iterations
from position j with i = failure[j - 1] and all entries below j
correct leaves a table whose entries below j + rem are all correct. -/
lemma kmpFailureGo_correct {P : Int → Char} :
    ∀ rem : Nat, ∀ j i : Int, ∀ fl : Int → Int, 1 ≤ j → i = fl (j - 1) →
      (∀ k, 0 ≤ k → k < j → FailCorrectAt P fl k) →
      ∀ k, 0 ≤ k → k < j + (rem : Int) →
        FailCorrectAt P (kmpFailureGo P rem j i fl) k := by
  intro rem
  induction rem with
  | zero =>
    intro j i fl hj hi hprev k hk0 hk
    simp only [kmpFailureGo]
    exact hprev k hk0 (by push_cast at hk; omega)
  | succ rem ih =>
    intro j i fl hj hi hprev k hk0 hk
    simp only [kmpFailureGo]
    subst hi
    set i2 := kmpStep P fl (P j) (fl (j - 1)) with hi2
    obtain ⟨hstepc, hstepm⟩ := kmp_failure_step hj hprev
    have hprev' : ∀ k, 0 ≤ k → k < j + 1 → FailCorrectAt P (setAt fl j i2) k := by
      intro k' hk0' hk'
      by_cases hkj : k' = j
      · subst hkj
        constructor
        · rw [setAt_self]
          exact hstepc
        · intro b hb
          rw [setAt_self]
          exact hstepm b hb
      · exact failCorrect_congr (setAt_ne fl j i2 k' hkj).symm
          (hprev k' hk0' (by omega))
    have hieq : i2 = (setAt fl j i2) (j + 1 - 1) := by
      have h : j + 1 - 1 = j := by omega
      rw [h, setAt_self]
    have := ih (j + 1) i2 (setAt fl j i2) (by omega) hieq hprev' k hk0
      (by push_cast at hk ⊢; omega)
    exact this

/-- Every entry of the failure table built by kmp_failure is correct
(pattern length m at least 1). -/
lemma kmp_failure_correct {P : Int → Char} {m : Int} (fl0 : Int → Int)
    (hm : 1 ≤ m) :
    ∀ k, 0 ≤ k → k < m → FailCorrectAt P (kmp_failure P m fl0) k := by
  intro k hk0 hkm
  have base : ∀ k', 0 ≤ k' → k' < (1 : Int) →
      FailCorrectAt P (setAt fl0 0 (-1)) k' := by
    intro k' hk0' hk1
    have hk' : k' = 0 := by omega
    subst hk'
    constructor
    · rw [setAt_self]
      norm_num
      exact ⟨matched_zero (by omega), le_refl 0⟩
    · intro b hb
      rw [setAt_self]
      have h2 := hb.2
      omega

  have hi : (-1 : Int) = (setAt fl0 0 (-1)) (1 - 1) := by
    norm_num [setAt_self]
  unfold kmp_failure
  exact kmpFailureGo_correct (m - 1).toNat 1 (-1) (setAt fl0 0 (-1))
    (le_refl 1) hi base k hk0 (by omega)

/-- The failure values strictly decrease and are at least -1. -/
lemma kmp_failure_range {P : Int → Char} {m : Int} (fl0 : Int → Int)
    (hm : 1 ≤ m) :
    ∀ k, 0 ≤ k → k < m →
      -1 ≤ kmp_failure P m fl0 k ∧ kmp_failure P m fl0 k < k := by
  intro k hk0 hkm
  have h := kmp_failure_correct (P := P) fl0 hm k hk0 hkm
  have h1 := matched_nonneg h.1.1
  have h2 := h.1.2
  omega

/-- The failure table entries do not depend on the junk initially in
the buffer. -/
lemma kmp_failure_indep {P : Int → Char} {m : Int} (fl0 fl0' : Int → Int)
    (hm : 1 ≤ m) :
    ∀ k, 0 ≤ k → k < m → kmp_failure P m fl0 k = kmp_failure P m fl0' k := by
  intro k hk0 hkm
  have h := kmp_failure_correct (P := P) fl0 hm k hk0 hkm
  have h' := kmp_failure_correct (P := P) fl0' hm k hk0 hkm
  have h1 := h.2 _ h'.1
  have h2 := h'.2 _ h.1
  omega

/-! Correctness of the batch scan. -/

/-- Invariant of the scan loop of kmp_match after consuming j text
characters: i + 1 is the length of the longest prefix of P matching a
suffix of the consumed text, among lengths at most m - 1 (a completed
match is collapsed through the failure link as soon as it occurs, which
is why i never rests at m - 1). -/
def ScanInv (T P : Int → Char) (m j i : Int) : Prop :=
  -1 ≤ i ∧ i ≤ m - 2 ∧ MatchedAt T P j (i + 1) ∧
    ∀ b, MatchedAt T P j b → b ≤ m - 1 → b ≤ i + 1

/-- One scan iteration: the step lands on m - 1 exactly when a full
occurrence of the pattern ends at text index j, and the invariant is
preserved by the post-step value (collapsed when a match completed). -/
lemma kmpScan_step {T P : Int → Char} {m : Int} {fl : Int → Int} {j i : Int}
    (hm : 1 ≤ m) (hfc : ∀ k, 0 ≤ k → k < m → FailCorrectAt P fl k)
    (hj : 0 ≤ j) (hinv : ScanInv T P m j i) :
    (kmpStep P fl (T j) i = m - 1 ↔ MatchedAt T P (j + 1) m) ∧
    ScanInv T P m (j + 1)
      (if kmpStep P fl (T j) i = m - 1 then fl (kmpStep P fl (T j) i)
       else kmpStep P fl (T j) i) := by
  obtain ⟨hi1, hi2, hMi, hmaxi⟩ := hinv
  obtain ⟨hs1, hs2, hs3, hs4⟩ := kmpStep_spec (c := T j) hi1
    (fun k hk0 hk => hfc k hk0 (by omega))
  set i2 := kmpStep P fl (T j) i with hi2d
  have hMnew : MatchedAt T P (j + 1) (i2 + 1) := by
    by_cases h0 : i2 = -1
    · rw [h0]
      norm_num
      exact matched_zero (by omega)
    · obtain ⟨hM, hPeq⟩ := hs3 (by omega)
      have hMT : MatchedAt T P j i2 := (matched_sub hMi (by omega) (by omega)).mpr hM
      refine (matched_succ (by omega)).mpr ⟨matched_cast rfl (by omega) hMT, ?_⟩
      have h : i2 + 1 - 1 = i2 := by omega
      rw [h]
      exact hPeq
  have hmaxnew : ∀ b, MatchedAt T P (j + 1) b → b ≤ m - 1 → b ≤ i2 + 1 := by
    intro b hMb hbm
    by_cases hb0 : b = 0
    · omega
    · have hb1 : 1 ≤ b := by
        have := matched_nonneg hMb
        omega
      obtain ⟨hMb', hPb⟩ := (matched_succ hb1).mp hMb
      have hble : b - 1 ≤ i + 1 := hmaxi (b - 1) hMb' (by omega)
      have hMc : MatchedAt P P (i + 1) (b - 1) :=
        (matched_sub hMi (by omega) hble).mp hMb'
      exact hs4 b hb1 hMc hPb
  have hiff : i2 = m - 1 ↔ MatchedAt T P (j + 1) m := by
    constructor
    · intro h
      rw [h] at hMnew
      exact matched_cast rfl (by omega) hMnew
    · intro hMm
      obtain ⟨hMb', hPb⟩ := (matched_succ (by omega : (1 : Int) ≤ m)).mp hMm
      have hble : m - 1 ≤ i + 1 := hmaxi (m - 1) hMb' (le_refl _)
      have hMc : MatchedAt P P (i + 1) (m - 1) :=
        (matched_sub hMi (by omega) hble).mp hMb'
      have := hs4 m (by omega) hMc hPb
      omega
  refine ⟨hiff, ?_⟩
  by_cases hfull : i2 = m - 1
  · rw [if_pos hfull, hfull]
    have hfcm := hfc (m - 1) (by omega) (by omega)
    have hr1 : 0 ≤ fl (m - 1) + 1 := matched_nonneg hfcm.1.1
    have hr2 : fl (m - 1) + 1 ≤ m - 1 := hfcm.1.2
    have hMm : MatchedAt T P (j + 1) m := hiff.mp hfull
    refine ⟨by omega, by omega, ?_, ?_⟩
    · refine (matched_sub hMm (by omega) (by omega)).mpr ?_
      exact matched_cast (by omega) rfl hfcm.1.1
    · intro b hMb hbm
      have hMPb : MatchedAt P P m b :=
        (matched_sub hMm (matched_nonneg hMb) (by omega)).mp hMb
      exact hfcm.2 b ⟨matched_cast (by omega) rfl hMPb, by omega⟩
  · rw [if_neg hfull]
    exact ⟨by omega, by omega, hMnew, hmaxnew⟩

/-- The output accumulator of the scan is append-only: the final state
does not depend on it and the recorded offsets are appended to it. -/
lemma kmpScan_acc {T P : Int → Char} {m : Int} {fl : Int → Int} :
    ∀ rem : Nat, ∀ j i : Int, ∀ out : List Int,
      kmpScan T P m fl rem j i out
        = ((kmpScan T P m fl rem j i []).1,
           out ++ (kmpScan T P m fl rem j i []).2) := by
  intro rem
  induction rem with
  | zero =>
    intro j i out
    simp [kmpScan]
  | succ rem ih =>
    intro j i out
    simp only [kmpScan]
    split
    · rw [ih (j + 1) _ (out ++ [j - m + 1]), ih (j + 1) _ ([] ++ [j - m + 1])]
      simp
    · rw [ih (j + 1) _ out]

/-- Unfolding one recording iteration of the scan. -/
lemma kmpScan_succ_pos {T P : Int → Char} {m : Int} {fl : Int → Int}
    {rem : Nat} {j i : Int} (hfull : kmpStep P fl (T j) i = m - 1) :
    kmpScan T P m fl (rem + 1) j i []
      = ((kmpScan T P m fl rem (j + 1) (fl (kmpStep P fl (T j) i)) []).1,
         (j - m + 1) ::
           (kmpScan T P m fl rem (j + 1) (fl (kmpStep P fl (T j) i)) []).2) := by
  simp only [kmpScan]
  rw [if_pos hfull, kmpScan_acc]
  simp

/-- Unfolding one non-recording iteration of the scan. -/
lemma kmpScan_succ_neg {T P : Int → Char} {m : Int} {fl : Int → Int}
    {rem : Nat} {j i : Int} (hfull : ¬ kmpStep P fl (T j) i = m - 1) :
    kmpScan T P m fl (rem + 1) j i []
      = kmpScan T P m fl rem (j + 1) (kmpStep P fl (T j) i) [] := by
  simp only [kmpScan]
  rw [if_neg hfull]

/-- Strictly increasing lists: prepending a strict lower bound. -/
lemma chain'_cons_of_lt {x : Int} {l : List Int} (hl : List.Chain' (· < ·) l)
    (hx : ∀ y ∈ l, x < y) : List.Chain' (· < ·) (x :: l) := by
  cases l with
  | nil => simp
  | cons y l' => exact List.chain'_cons.mpr ⟨hx y (List.mem_cons_self y l'), hl⟩

/-- Main characterization of the scan loop: starting in an invariant
state after j consumed characters and running rem more iterations, the
recorded offsets are exactly those o whose occurrence window ends in
the scanned range and matches; they are strictly increasing, bounded
below, and the final value of i satisfies the invariant again. -/
lemma kmpScan_run {T P : Int → Char} {m : Int} {fl : Int → Int}
    (hm : 1 ≤ m) (hfc : ∀ k, 0 ≤ k → k < m → FailCorrectAt P fl k) :
    ∀ rem : Nat, ∀ j i : Int, 0 ≤ j → ScanInv T P m j i →
      (∀ o, o ∈ (kmpScan T P m fl rem j i []).2 ↔
        j ≤ o + m - 1 ∧ o + m - 1 < j + (rem : Int) ∧ MatchedAt T P (o + m) m) ∧
      List.Chain' (· < ·) (kmpScan T P m fl rem j i []).2 ∧
      (∀ o ∈ (kmpScan T P m fl rem j i []).2, j - m + 1 ≤ o) ∧
      ScanInv T P m (j + (rem : Int)) (kmpScan T P m fl rem j i []).1 := by
  intro rem
  induction rem with
  | zero =>
    intro j i hj hinv
    simp only [kmpScan]
    refine ⟨?_, by simp, by simp, by simpa using hinv⟩
    intro o
    simp only [List.not_mem_nil, false_iff]
    push_cast
    rintro ⟨h1, h2, -⟩
    omega
  | succ rem ih =>
    intro j i hj hinv
    obtain ⟨hiff, hinv'⟩ := kmpScan_step hm hfc hj hinv
    by_cases hfull : kmpStep P fl (T j) i = m - 1
    · rw [kmpScan_succ_pos hfull]
      rw [if_pos hfull] at hinv'
      have hMm : MatchedAt T P (j + 1) m := hiff.mp hfull
      obtain ⟨hmem, hchain, hlow, hfin⟩ :=
        ih (j + 1) (fl (kmpStep P fl (T j) i)) (by omega) hinv'
      refine ⟨?_, ?_, ?_, ?_⟩
      · intro o
        simp only [List.mem_cons, hmem o]
        constructor
        · rintro (rfl | ⟨h1, h2, h3⟩)
          · refine ⟨by omega, by push_cast; omega, matched_cast (by omega) rfl hMm⟩
          · exact ⟨by omega, by push_cast at h2 ⊢; omega, h3⟩
        · rintro ⟨h1, h2, h3⟩
          by_cases hoj : o + m - 1 = j
          · left
            omega
          · right
            exact ⟨by omega, by push_cast at h2 ⊢; omega, h3⟩
      · refine chain'_cons_of_lt hchain ?_
        intro y hy
        have := hlow y hy
        omega
      · intro o ho
        rw [List.mem_cons] at ho
        rcases ho with rfl | ho
        · omega
        · have := hlow o ho
          omega
      · have hcast : j + 1 + (rem : Int) = j + ((rem : Nat) + 1 : Nat) := by
          push_cast
          ring
        rw [← hcast]
        exact hfin
    · rw [kmpScan_succ_neg hfull]
      rw [if_neg hfull] at hinv'
      obtain ⟨hmem, hchain, hlow, hfin⟩ :=
        ih (j + 1) (kmpStep P fl (T j) i) (by omega) hinv'
      refine ⟨?_, hchain, ?_, ?_⟩
      · intro o
        rw [hmem o]
        constructor
        · rintro ⟨h1, h2, h3⟩
          exact ⟨by omega, by push_cast at h2 ⊢; omega, h3⟩
        · rintro ⟨h1, h2, h3⟩
          by_cases hoj : o + m - 1 = j
          · exfalso
            have hMfull : MatchedAt T P (j + 1) m := by
              refine matched_cast (by omega) rfl h3
            exact hfull (hiff.mpr hMfull)
          · exact ⟨by omega, by push_cast at h2 ⊢; omega, h3⟩
      · intro o ho
        have := hlow o ho
        omega
      · have hcast : j + 1 + (rem : Int) = j + ((rem : Nat) + 1 : Nat) := by
          push_cast
          ring
        rw [← hcast]
        exact hfin

/-- The scan invariant holds initially (i = -1, nothing consumed). -/
lemma scanInv_init {T P : Int → Char} {m : Int} (hm : 1 ≤ m) :
    ScanInv T P m 0 (-1) := by
  refine ⟨le_refl _, by omega, matched_cast rfl (by omega) (matched_zero (le_refl 0)), ?_⟩
  intro b hMb _
  have := matched_le hMb
  omega

/-- An occurrence window expressed at its start offset. -/
lemma matched_occ {T P : Int → Char} {o m : Int} (hm : 0 ≤ m) :
    MatchedAt T P (o + m) m ↔ 0 ≤ o ∧ ∀ t, 0 ≤ t → t < m → T (o + t) = P t := by
  constructor
  · rintro ⟨h1, h2, h3⟩
    refine ⟨by omega, fun t ht0 htm => ?_⟩
    have h := h3 t ht0 htm
    have harg : o + m - m + t = o + t := by omega
    rw [harg] at h
    exact h.symm
  · rintro ⟨ho, hval⟩
    refine ⟨hm, by omega, fun t ht0 htm => ?_⟩
    have harg : o + m - m + t = o + t := by omega
    rw [harg]
    exact (hval t ht0 htm).symm

/-- Functional correctness core of kmp_match for a nonempty pattern. -/
lemma kmp_match_spec_core {T : Int → Char} {n : Int} {P : Int → Char} {m : Int}
    (fl0 : Int → Int) (hm : 1 ≤ m) (hn : 0 ≤ n) :
    MatchSpec T n P m (kmp_match T n P m fl0) := by
  have hfc := kmp_failure_correct (P := P) fl0 hm
  obtain ⟨hmem, hchain, hlow, hfin⟩ :=
    kmpScan_run hm hfc n.toNat 0 (-1) (le_refl 0) (scanInv_init hm)
  unfold kmp_match
  refine ⟨hchain, ?_⟩
  intro o
  rw [hmem o, matched_occ (by omega)]
  constructor
  · rintro ⟨h1, h2, ho, hval⟩
    exact ⟨ho, by omega, hval⟩
  · rintro ⟨ho, hon, hval⟩
    exact ⟨by omega, by omega, ho, hval⟩

/-- Any fallback result is at most the starting index, as long as the
failure entries strictly decrease. -/
lemma kmpFall_le {P : Int → Char} {fl : Int → Int} {c : Char}
    (hfl : ∀ k, 0 ≤ k → fl k < k) :
    ∀ f : Nat, ∀ i : Int, kmpFall P fl c f i ≤ i := by
  intro f
  induction f with
  | zero => exact fun i => le_refl i
  | succ f ih =>
    intro i
    by_cases hcond : -1 < i ∧ P (i + 1) ≠ c
    · simp only [kmpFall, if_pos hcond]
      have h1 := ih (fl i)
      have h2 := hfl i (by omega)
      omega
    · rw [kmpFall_stop hcond]

/-- The scan records at most one offset per iteration. -/
lemma kmpScan_len_le (T P : Int → Char) (m : Int) (fl : Int → Int) :
    ∀ rem : Nat, ∀ j i : Int, ∀ out : List Int,
      (kmpScan T P m fl rem j i out).2.length ≤ out.length + rem := by
  intro rem
  induction rem with
  | zero =>
    intro j i out
    simp [kmpScan]
  | succ rem ih =>
    intro j i out
    simp only [kmpScan]
    split
    · have h := ih (j + 1) (fl (kmpStep P fl (T j) i)) (out ++ [j - m + 1])
      simp only [List.length_append, List.length_singleton] at h
      omega
    · have h := ih (j + 1) (kmpStep P fl (T j) i) out
      omega

/-- A strictly increasing list of integers within a closed interval has
at most interval-length many elements. -/
lemma chain'_length_le :
    ∀ l : List Int, ∀ a b : Int, List.Chain' (· < ·) l →
      (∀ x ∈ l, x ≤ b) → (∀ h ∈ l.head?, a ≤ h) →
      l.length ≤ (b - a + 1).toNat := by
  intro l
  induction l with
  | nil =>
    intro a b _ _ _
    simp
  | cons x l' ih =>
    intro a b hch hub hhd
    have hax : a ≤ x := hhd x rfl
    have hxb : x ≤ b := hub x (List.mem_cons_self x l')
    have hch' : List.Chain' (· < ·) l' := hch.tail
    have hhd' : ∀ h ∈ l'.head?, x + 1 ≤ h := by
      intro h hh
      cases l' with
      | nil => simp at hh
      | cons y l'' =>
        have hyh : y = h := by simpa using hh
        have hxy : x < y := (List.chain'_cons.mp hch).1
        omega
    have h := ih (x + 1) b hch' (fun z hz => hub z (List.mem_cons_of_mem x hz)) hhd'
    simp only [List.length_cons]
    omega

/-! The streaming matcher: congruence with the batch scan. -/

/-- The fallback loop only reads the pattern at indexes up to B + 1 and
the failure table at indexes up to B, when started at i ≤ B. -/
lemma kmpFall_congr {P Q : Int → Char} {fl fl' : Int → Int} {c : Char} {B : Int}
    (hfl : ∀ k, 0 ≤ k → k ≤ B → -1 ≤ fl k ∧ fl k < k)
    (hP : ∀ k, 0 ≤ k → k ≤ B + 1 → P k = Q k)
    (hF : ∀ k, 0 ≤ k → k ≤ B → fl k = fl' k) :
    ∀ f : Nat, ∀ i : Int, -1 ≤ i → i ≤ B →
      kmpFall P fl c f i = kmpFall Q fl' c f i := by
  intro f
  induction f with
  | zero => intro i _ _; rfl
  | succ f ih =>
    intro i hi1 hi2
    by_cases hcond : -1 < i ∧ P (i + 1) ≠ c
    · have hi0 : 0 ≤ i := by omega
      have hPeq : P (i + 1) = Q (i + 1) := hP (i + 1) (by omega) (by omega)
      have hcond' : -1 < i ∧ Q (i + 1) ≠ c := ⟨hcond.1, by rw [← hPeq]; exact hcond.2⟩
      simp only [kmpFall, if_pos hcond, if_pos hcond']
      have hk := hfl i hi0 hi2
      rw [← hF i hi0 hi2]
      exact ih (fl i) (by omega) (by omega)
    · have hcond' : ¬(-1 < i ∧ Q (i + 1) ≠ c) := by
        intro h
        apply hcond
        refine ⟨h.1, ?_⟩
        rw [hP (i + 1) (by omega) (by omega)]
        exact h.2
      rw [kmpFall_stop hcond, kmpFall_stop hcond']

/-- The loop body only reads the pattern at indexes up to B + 1 and the
failure table at indexes up to B, when started at i ≤ B. -/
lemma kmpStep_congr {P Q : Int → Char} {fl fl' : Int → Int} {c : Char} {B : Int}
    (hfl : ∀ k, 0 ≤ k → k ≤ B → -1 ≤ fl k ∧ fl k < k)
    (hP : ∀ k, 0 ≤ k → k ≤ B + 1 → P k = Q k)
    (hF : ∀ k, 0 ≤ k → k ≤ B → fl k = fl' k)
    {i : Int} (hi1 : -1 ≤ i) (hi2 : i ≤ B) :
    kmpStep P fl c i = kmpStep Q fl' c i := by
  simp only [kmpStep]
  rw [← kmpFall_congr hfl hP hF ((i + 2).toNat) i hi1 hi2]
  have hr := kmpFall_range (P := P) (c := c) hfl ((i + 2).toNat) i hi1 hi2
  set r := kmpFall P fl c (i + 2).toNat i
  have hPr : P (r + 1) = Q (r + 1) := hP (r + 1) (by omega) (by omega)
  rw [← hPr]

/-- One kmp_stream feed, on a state whose pattern copy and failure
table agree with P and fl on the valid range, acts exactly like one
batch scan iteration with symbol c: the progress index advances the
same way and j is emitted exactly when the step lands on m - 1. -/
lemma kmp_stream_eq_step {A P : Int → Char} {fc fl : Int → Int} {m i : Int}
    (hm : 1 ≤ m)
    (hfl : ∀ k, 0 ≤ k → k < m → -1 ≤ fl k ∧ fl k < k)
    (hP : ∀ k, 0 ≤ k → k < m → A k = P k)
    (hF : ∀ k, 0 ≤ k → k < m → fc k = fl k)
    (hi1 : -1 ≤ i) (hi2 : i ≤ m - 2) (c : Char) (j : Int) :
    kmp_stream ⟨A, m, i, fc⟩ c j
      = (⟨A, m,
          if kmpStep P fl c i = m - 1 then fl (kmpStep P fl c i)
          else kmpStep P fl c i, fc⟩,
         if kmpStep P fl c i = m - 1 then j else -1) := by
  have hfl' : ∀ k, 0 ≤ k → k ≤ m - 2 → -1 ≤ fc k ∧ fc k < k := by
    intro k hk0 hk
    rw [hF k hk0 (by omega)]
    exact hfl k hk0 (by omega)
  have hstep : kmpStep A fc c i = kmpStep P fl c i :=
    kmpStep_congr (B := m - 2) hfl'
      (fun k hk0 hk => hP k hk0 (by omega))
      (fun k hk0 hk => hF k hk0 (by omega)) hi1 hi2
  by_cases hc : kmpStep P fl c i = m - 1
  · have hfcv : fc (kmpStep P fl c i) = fl (kmpStep P fl c i) := by
      rw [hc]
      exact hF (m - 1) (by omega) (by omega)
    simp only [kmp_stream, hstep, hfcv, hc]
    simp
    exact hF (m - 1) (by omega) (by omega)
  · simp only [kmp_stream, hstep]
    rw [if_neg hc, if_neg hc, if_neg hc]

/-- Streaming over the text produces, in order, the end positions of
exactly the occurrences that the batch scan records (the batch records
start offsets, the stream emits end positions, differing by m - 1). -/
lemma kmpStreamRun_eq_scan {T A P : Int → Char} {fc fl : Int → Int} {m : Int}
    (hm : 1 ≤ m)
    (hfc : ∀ k, 0 ≤ k → k < m → FailCorrectAt P fl k)
    (hP : ∀ k, 0 ≤ k → k < m → A k = P k)
    (hF : ∀ k, 0 ≤ k → k < m → fc k = fl k) :
    ∀ rem : Nat, ∀ j i : Int, 0 ≤ j → ScanInv T P m j i →
      kmpStreamRun T ⟨A, m, i, fc⟩ rem j
        = ((kmpScan T P m fl rem j i []).2).map (fun o => o + m - 1) := by
  have hfl : ∀ k, 0 ≤ k → k < m → -1 ≤ fl k ∧ fl k < k := by
    intro k hk0 hk
    have h := hfc k hk0 hk
    have h1 := matched_nonneg h.1.1
    have h2 := h.1.2
    omega
  intro rem
  induction rem with
  | zero =>
    intro j i _ _
    simp [kmpStreamRun, kmpScan]
  | succ rem ih =>
    intro j i hj hinv
    obtain ⟨hiff, hinv'⟩ := kmpScan_step hm hfc hj hinv
    have hstream := kmp_stream_eq_step hm hfl hP hF hinv.1 hinv.2.1 (T j) j
    by_cases hc : kmpStep P fl (T j) i = m - 1
    · rw [kmpScan_succ_pos hc]
      rw [if_pos hc] at hinv'
      simp only [kmpStreamRun, hstream, if_pos hc]
      have hjne : ¬ (j = -1) := by omega
      rw [ih (j + 1) _ (by omega) hinv']
      simp only [List.map_cons, if_neg hjne, List.singleton_append]
      congr 1
      omega
    · rw [kmpScan_succ_neg hc]
      rw [if_neg hc] at hinv'
      simp only [kmpStreamRun, hstream, if_neg hc, if_pos rfl, List.nil_append]
      exact ih (j + 1) _ (by omega) hinv'

/-- Feeding an arbitrary list of (symbol, position) pairs leaves the
state that the batch scan reaches on the induced text; only the
progress index changes. -/
lemma kmpFeeds_eq_scan {A P : Int → Char} {fc fl : Int → Int} {m : Int}
    (hm : 1 ≤ m)
    (hfc : ∀ k, 0 ≤ k → k < m → FailCorrectAt P fl k)
    (hP : ∀ k, 0 ≤ k → k < m → A k = P k)
    (hF : ∀ k, 0 ≤ k → k < m → fc k = fl k) :
    ∀ fs : List (Char × Int), ∀ T : Int → Char, ∀ j i : Int, 0 ≤ j →
      ScanInv T P m j i →
      (∀ t : Nat, t < fs.length → T (j + (t : Int)) = (fs.map Prod.fst).getD t 'a') →
      kmpFeeds ⟨A, m, i, fc⟩ fs
        = ⟨A, m, (kmpScan T P m fl fs.length j i []).1, fc⟩ := by
  have hfl : ∀ k, 0 ≤ k → k < m → -1 ≤ fl k ∧ fl k < k := by
    intro k hk0 hk
    have h := hfc k hk0 hk
    have h1 := matched_nonneg h.1.1
    have h2 := h.1.2
    omega
  intro fs
  induction fs with
  | nil =>
    intro T j i _ _ _
    simp [kmpFeeds, kmpScan]
  | cons f fs ih =>
    intro T j i hj hinv hT
    obtain ⟨hiff, hinv'⟩ := kmpScan_step hm hfc hj hinv
    have hTj : T j = f.1 := by
      have h := hT 0 (by simp)
      simpa using h
    have hstream := kmp_stream_eq_step hm hfl hP hF hinv.1 hinv.2.1 f.1 f.2
    have hT' : ∀ t : Nat, t < fs.length →
        T (j + 1 + (t : Int)) = (fs.map Prod.fst).getD t 'a' := by
      intro t ht
      have h := hT (t + 1) (by simp; omega)
      have harg : j + ((t : Nat) + 1 : Nat) = j + 1 + (t : Int) := by
        push_cast
        ring
      rw [harg] at h
      rw [h]
      simp
    simp only [kmpFeeds]
    rw [← hTj] at hstream
    rw [← hTj, hstream]
    have hlen : ((f :: fs).length : Nat) = fs.length + 1 := rfl
    rw [hlen]
    by_cases hc : kmpStep P fl (T j) i = m - 1
    · rw [if_pos hc] at hinv'
      rw [if_pos hc]
      simp only [kmpScan_succ_pos hc]
      exact ih T (j + 1) _ (by omega) hinv' hT'
    · rw [if_neg hc] at hinv'
      rw [if_neg hc]
      simp only [kmpScan_succ_neg hc]
      exact ih T (j + 1) _ (by omega) hinv' hT'

/-! Claim theorems. -/

/-- C1: for every text T of length n and pattern P of length m with
1 ≤ m ≤ n, kmp_match records exactly the offsets o such that
T[o .. o+m-1] equals P, each occurrence exactly once (overlapping ones
included), in strictly increasing order; in particular matching aaa in
aaaaaa yields [0, 1, 2, 3] and abab in abababab yields [0, 2, 4]. -/
theorem kmp_match_correct (T : Int → Char) (n : Int) (P : Int → Char)
    (m : Int) (fl0 : Int → Int) (hm : 1 ≤ m) (hmn : m ≤ n) :
    MatchSpec T n P m (kmp_match T n P m fl0) ∧
    kmp_match allA 6 allA 3 zeroF = [0, 1, 2, 3] ∧
    kmp_match abT 8 abT 4 zeroF = [0, 2, 4] :=
  ⟨kmp_match_spec_core fl0 hm (by omega), by decide, by decide⟩

/-- Witness for C1 at the concrete all-a text of length 6 and pattern
of length 3. -/
theorem kmp_match_correct_witness :
    (1 : Int) ≤ 3 ∧ (3 : Int) ≤ 6 ∧
    (MatchSpec allA 6 allA 3 (kmp_match allA 6 allA 3 zeroF) ∧
     kmp_match allA 6 allA 3 zeroF = [0, 1, 2, 3] ∧
     kmp_match abT 8 abT 4 zeroF = [0, 2, 4]) :=
  ⟨by norm_num, by norm_num,
   kmp_match_correct allA 6 allA 3 zeroF (by norm_num) (by norm_num)⟩

/-- C2: feeding the text symbols one at a time through the streaming
matcher built by kmp_build emits a match exactly at those positions j
for which the batch matcher reports start offset j - m + 1, producing
the same ordered sequence of occurrences; the junk contents of the two
internal buffers (fl0a for the build, fl0b for the batch call) are
irrelevant. -/
theorem kmp_stream_equiv_batch (T : Int → Char) (n : Int) (P : Int → Char)
    (m : Int) (padP : Int → Char) (fl0a fl0b : Int → Int)
    (hm : 1 ≤ m) (_hn : 0 ≤ n) :
    kmpStreamRun T (kmp_build P m padP fl0a) n.toNat 0
      = (kmp_match T n P m fl0b).map (fun o => o + m - 1) := by
  have hfc := kmp_failure_correct (P := P) fl0b hm
  have hP : ∀ k, 0 ≤ k → k < m →
      (fun k => if 0 ≤ k ∧ k < m then P k else padP k) k = P k := by
    intro k hk0 hk
    simp [hk0, hk]
  have hF : ∀ k, 0 ≤ k → k < m →
      kmp_failure P m fl0a k = kmp_failure P m fl0b k :=
    kmp_failure_indep fl0a fl0b hm
  unfold kmp_match kmp_build
  exact kmpStreamRun_eq_scan hm hfc hP hF n.toNat 0 (-1) (le_refl 0)
    (scanInv_init hm)

/-- Witness for C2: all-a text of length 6, pattern of length 3, with
different junk in the streaming and batch buffers. -/
theorem kmp_stream_equiv_batch_witness :
    (1 : Int) ≤ 3 ∧ (0 : Int) ≤ 6 ∧
    kmpStreamRun allA (kmp_build allA 3 allB zeroF) (6 : Int).toNat 0
      = (kmp_match allA 6 allA 3 sevenF).map (fun o => o + 3 - 1) :=
  ⟨by norm_num, by norm_num,
   kmp_stream_equiv_batch allA 6 allA 3 allB zeroF sevenF (by norm_num)
     (by norm_num)⟩

/-- C3: for a pattern of length m ≥ 1, failure[0] = -1, failure[j] < j
for every j in range, and failure[j] + 1 is the length of the longest
proper prefix of P[0 .. j] that is also a suffix of P[0 .. j] (the
maximality conjunct forces failure[j] = -1 exactly when no nonempty
such prefix exists). -/
theorem kmp_failure_spec (P : Int → Char) (m : Int) (fl0 : Int → Int) (j : Int)
    (hm : 1 ≤ m) (hj0 : 0 ≤ j) (hjm : j < m) :
    kmp_failure P m fl0 0 = -1 ∧
    kmp_failure P m fl0 j < j ∧
    IsBorderLen P j (kmp_failure P m fl0 j + 1) ∧
    ∀ b, IsBorderLen P j b → b ≤ kmp_failure P m fl0 j + 1 := by
  have h0 := kmp_failure_correct (P := P) fl0 hm 0 (le_refl 0) (by omega)
  have hj := kmp_failure_correct (P := P) fl0 hm j hj0 hjm
  have h0a := matched_nonneg h0.1.1
  have h0b := h0.1.2
  have hja := hj.1.2
  exact ⟨by omega, by omega, hj.1, hj.2⟩

/-- Witness for C3 at the pattern abab (entry 3). -/
theorem kmp_failure_spec_witness :
    (1 : Int) ≤ 4 ∧ (0 : Int) ≤ 3 ∧ (3 : Int) < 4 ∧
    (kmp_failure abT 4 sevenF 0 = -1 ∧
     kmp_failure abT 4 sevenF 3 < 3 ∧
     IsBorderLen abT 3 (kmp_failure abT 4 sevenF 3 + 1) ∧
     ∀ b, IsBorderLen abT 3 b → b ≤ kmp_failure abT 4 sevenF 3 + 1) :=
  ⟨by norm_num, by norm_num, by norm_num,
   kmp_failure_spec abT 4 sevenF 3 (by norm_num) (by norm_num) (by norm_num)⟩

/-- C4 failing input: with an empty pattern (m = 0) over the length-1
text a, when the junk byte returned by the out-of-bounds read P[0] is
b, kmp_match reports one match at the bogus offset 1 instead of the
empty result the specification requires. -/
theorem kmp_match_empty_pattern_bug :
    kmp_match allA 1 allB 0 zeroF = [1] ∧ kmp_match allA 1 allB 0 zeroF ≠ [] :=
  ⟨by decide, by decide⟩

/-- C5 failing input: for m = 0, kmp_failure still performs the store
failure[0] = -1 (an out-of-bounds heap write in the C code, since the
table has zero length): the buffer, holding junk 7 at index 0 before
the call, holds -1 there afterwards, so a table entry was touched. -/
theorem kmp_failure_empty_pattern_bug :
    kmp_failure allA 0 sevenF 0 = -1 ∧ sevenF 0 = 7 :=
  ⟨by decide, by decide⟩

/-- C6: with a failure table satisfying failure[k] < k for all k ≥ 0,
the fallback loop started at i terminates: with fuel i + 2 it has
already reached a state where the loop condition fails, adding fuel
changes nothing, and the result never exceeds the start index (i
strictly decreases at each fallback step, bounded below by -1). -/
theorem kmpFall_terminates (P : Int → Char) (fl : Int → Int) (c : Char)
    (i : Int) (hfl : ∀ k, 0 ≤ k → fl k < k) :
    (∀ f : Nat, (i + 2).toNat ≤ f →
        kmpFall P fl c f i = kmpFall P fl c (i + 2).toNat i) ∧
    kmpFall P fl c (i + 2).toNat i ≤ i ∧
    ¬(-1 < kmpFall P fl c (i + 2).toNat i ∧
        P (kmpFall P fl c (i + 2).toNat i + 1) ≠ c) := by
  have hfl' : ∀ k, 0 ≤ k → k ≤ i → fl k < k := fun k hk0 _ => hfl k hk0
  refine ⟨?_, kmpFall_le hfl ((i + 2).toNat) i,
    kmpFall_exits (i + 1).toNat i hfl' (le_refl _)⟩
  intro f hf
  exact kmpFall_fuel (i + 1).toNat i hfl' (le_refl _) f ((i + 2).toNat) hf
    (le_refl _)

/-- Witness for C6 at the table failure[k] = k - 1 and start index 5. -/
theorem kmpFall_terminates_witness :
    (∀ k : Int, 0 ≤ k → (fun k : Int => k - 1) k < k) ∧
    ((∀ f : Nat, ((5 : Int) + 2).toNat ≤ f →
        kmpFall allA (fun k => k - 1) 'b' f 5
          = kmpFall allA (fun k => k - 1) 'b' ((5 : Int) + 2).toNat 5) ∧
     kmpFall allA (fun k => k - 1) 'b' ((5 : Int) + 2).toNat 5 ≤ 5 ∧
     ¬(-1 < kmpFall allA (fun k => k - 1) 'b' ((5 : Int) + 2).toNat 5 ∧
        allA (kmpFall allA (fun k => k - 1) 'b' ((5 : Int) + 2).toNat 5 + 1)
          ≠ 'b')) :=
  ⟨fun k _ => by change k - 1 < k; omega,
   kmpFall_terminates allA (fun k => k - 1) 'b' 5
     (fun k _ => by change k - 1 < k; omega)⟩

/-- C7: after kmp_build (m ≥ 1) the progress index is -1; after any
finite sequence of feeds it lies in [-1, m - 1], and its successor is
the length of the longest prefix of the pattern matching a suffix of
the fed symbols among lengths at most m - 1 (the transient value m - 1
is collapsed through the failure link inside the feed itself). -/
theorem kmp_stream_state_invariant (P : Int → Char) (m : Int)
    (padP : Int → Char) (fl0 : Int → Int) (fs : List (Char × Int))
    (hm : 1 ≤ m) :
    (kmp_build P m padP fl0).i = -1 ∧
    -1 ≤ (kmpFeeds (kmp_build P m padP fl0) fs).i ∧
    (kmpFeeds (kmp_build P m padP fl0) fs).i ≤ m - 1 ∧
    MatchedAt (csText (fs.map Prod.fst)) P (fs.length : Int)
      ((kmpFeeds (kmp_build P m padP fl0) fs).i + 1) ∧
    ∀ b, MatchedAt (csText (fs.map Prod.fst)) P (fs.length : Int) b →
      b ≤ m - 1 → b ≤ (kmpFeeds (kmp_build P m padP fl0) fs).i + 1 := by
  have hfc := kmp_failure_correct (P := P) fl0 hm
  have hP : ∀ k, 0 ≤ k → k < m →
      (fun k => if 0 ≤ k ∧ k < m then P k else padP k) k = P k := by
    intro k hk0 hk
    simp [hk0, hk]
  have hF : ∀ k, 0 ≤ k → k < m →
      kmp_failure P m fl0 k = kmp_failure P m fl0 k := fun _ _ _ => rfl
  have hT : ∀ t : Nat, t < fs.length →
      csText (fs.map Prod.fst) (0 + (t : Int)) = (fs.map Prod.fst).getD t 'a' := by
    intro t ht
    unfold csText
    norm_num
  have hfeeds : kmpFeeds (kmp_build P m padP fl0) fs
      = ⟨fun k => if 0 ≤ k ∧ k < m then P k else padP k, m,
         (kmpScan (csText (fs.map Prod.fst)) P m (kmp_failure P m fl0)
            fs.length 0 (-1) []).1, kmp_failure P m fl0⟩ := by
    unfold kmp_build
    exact kmpFeeds_eq_scan hm hfc hP hF fs (csText (fs.map Prod.fst)) 0 (-1)
      (le_refl 0) (scanInv_init hm) hT
  obtain ⟨-, -, -, hfin⟩ :=
    kmpScan_run (T := csText (fs.map Prod.fst)) hm hfc fs.length 0 (-1)
      (le_refl 0) (scanInv_init hm)
  rw [hfeeds]
  dsimp only
  obtain ⟨hf1, hf2, hf3, hf4⟩ := hfin
  have hcast : (0 : Int) + (fs.length : Int) = (fs.length : Int) := by omega
  rw [hcast] at hf3 hf4
  exact ⟨rfl, hf1, by omega, hf3, hf4⟩

/-- Witness for C7: feeding two a symbols into a matcher for the
length-3 all-a pattern. -/
theorem kmp_stream_state_invariant_witness :
    (1 : Int) ≤ 3 ∧
    ((kmp_build allA 3 allB zeroF).i = -1 ∧
     -1 ≤ (kmpFeeds (kmp_build allA 3 allB zeroF) [('a', 0), ('a', 1)]).i ∧
     (kmpFeeds (kmp_build allA 3 allB zeroF) [('a', 0), ('a', 1)]).i ≤ 3 - 1 ∧
     MatchedAt (csText (([('a', 0), ('a', 1)] : List (Char × Int)).map Prod.fst))
       allA (([('a', 0), ('a', 1)] : List (Char × Int)).length : Int)
       ((kmpFeeds (kmp_build allA 3 allB zeroF) [('a', 0), ('a', 1)]).i + 1) ∧
     ∀ b, MatchedAt
         (csText (([('a', 0), ('a', 1)] : List (Char × Int)).map Prod.fst))
         allA (([('a', 0), ('a', 1)] : List (Char × Int)).length : Int) b →
       b ≤ 3 - 1 →
       b ≤ (kmpFeeds (kmp_build allA 3 allB zeroF) [('a', 0), ('a', 1)]).i + 1) :=
  ⟨by norm_num,
   kmp_stream_state_invariant allA 3 allB zeroF [('a', 0), ('a', 1)]
     (by norm_num)⟩

/-- C8: the number of offsets kmp_match records is at most
max(0, n - m + 1) (Int.toNat clamps at zero), so an output buffer of
that length is never overrun. -/
theorem kmp_match_output_bound (T : Int → Char) (n : Int) (P : Int → Char)
    (m : Int) (fl0 : Int → Int) (hn : 0 ≤ n) (hm : 0 ≤ m) :
    (kmp_match T n P m fl0).length ≤ (n - m + 1).toNat := by
  by_cases hm1 : 1 ≤ m
  · have hfc := kmp_failure_correct (P := P) fl0 hm1
    obtain ⟨hmem, hchain, hlow, hfin⟩ :=
      kmpScan_run hm1 hfc n.toNat 0 (-1) (le_refl 0) (scanInv_init hm1)
    have hub : ∀ x ∈ (kmpScan T P m (kmp_failure P m fl0) n.toNat 0 (-1) []).2,
        x ≤ n - m := by
      intro x hx
      obtain ⟨h1, h2, h3⟩ := (hmem x).mp hx
      have h4 := matched_le h3
      omega
    have hhd : ∀ h ∈ (kmpScan T P m (kmp_failure P m fl0)
        n.toNat 0 (-1) []).2.head?, (0 : Int) ≤ h := by
      intro h hh
      obtain ⟨h1, h2, h3⟩ := (hmem h).mp (List.mem_of_mem_head? hh)
      have h4 := matched_le h3
      omega
    have hbound := chain'_length_le _ 0 (n - m) hchain hub hhd
    unfold kmp_match
    omega
  · have hm0 : m = 0 := by omega
    subst hm0
    have hlen := kmpScan_len_le T P 0 (kmp_failure P 0 fl0) n.toNat 0 (-1) []
    unfold kmp_match
    simp only [List.length_nil] at hlen
    omega

/-- Witness for C8 at the all-a input with four recorded matches. -/
theorem kmp_match_output_bound_witness :
    (0 : Int) ≤ 6 ∧ (0 : Int) ≤ 3 ∧
    (kmp_match allA 6 allA 3 zeroF).length ≤ ((6 : Int) - 3 + 1).toNat :=
  ⟨by norm_num, by norm_num,
   kmp_match_output_bound allA 6 allA 3 zeroF (by norm_num) (by norm_num)⟩

/-- C10: kmp_build copies the pattern into matcher-owned storage
(entry by entry on the valid range), and kmp_stream mutates only the
progress index, leaving the pattern copy, the stored length and the
failure table untouched. -/
theorem kmp_build_copy_and_stream_frame (P : Int → Char) (m : Int)
    (padP : Int → Char) (fl0 : Int → Int) (st : KmpState) (c : Char)
    (j k : Int) (hk0 : 0 ≤ k) (hkm : k < m) :
    (kmp_build P m padP fl0).P k = P k ∧
    (kmp_stream st c j).1.P = st.P ∧
    (kmp_stream st c j).1.m = st.m ∧
    (kmp_stream st c j).1.failure = st.failure := by
  refine ⟨?_, ?_, ?_, ?_⟩
  · simp [kmp_build, hk0, hkm]
  · simp only [kmp_stream]
    split <;> rfl
  · simp only [kmp_stream]
    split <;> rfl
  · simp only [kmp_stream]
    split <;> rfl

/-- Witness for C10 at a concrete built state. -/
theorem kmp_build_copy_and_stream_frame_witness :
    (0 : Int) ≤ 1 ∧ (1 : Int) < 2 ∧
    ((kmp_build allA 2 allB zeroF).P 1 = allA 1 ∧
     (kmp_stream (kmp_build allA 2 allB zeroF) 'a' 0).1.P
       = (kmp_build allA 2 allB zeroF).P ∧
     (kmp_stream (kmp_build allA 2 allB zeroF) 'a' 0).1.m
       = (kmp_build allA 2 allB zeroF).m ∧
     (kmp_stream (kmp_build allA 2 allB zeroF) 'a' 0).1.failure
       = (kmp_build allA 2 allB zeroF).failure) :=
  ⟨by norm_num, by norm_num,
   kmp_build_copy_and_stream_frame allA 2 allB zeroF
     (kmp_build allA 2 allB zeroF) 'a' 0 1 (by norm_num) (by norm_num)⟩

end Kmp
